import Mathlib

set_option maxHeartbeats 1000000
set_option maxRecDepth 4096

namespace Prysm

/-! ## Slashing protector data model

The checking logic below is translated from
`src/validator/client/attest_protect.go`.  The persistent attesting-history
type (`kv.EncHistoryData` / `kv.HistoryData`) is not part of the sources, so
it is modelled from the spec (section 3): a `latestEpochWritten` counter and a
ring of record slots indexed by `epoch mod WeakSubjectivityPeriod`; a slot is
either the empty sentinel (modelled as `none`) or a record holding the source
epoch and the 32-byte signing root (modelled as a natural number). -/

/-- Modelled from the spec: `kv.HistoryData` (not in src) — `{sourceEpoch,
signingRoot}`; the empty sentinel is modelled by wrapping records in
`Option`. -/
structure HistoryData where
  source : Nat
  signingRoot : Nat
deriving DecidableEq

/-- Modelled from the spec: `kv.EncHistoryData` (not in src) — the
latest-epoch-written counter plus the ring of history records, one slot per
residue modulo the weak-subjectivity period. -/
structure EncHistoryData where
  latestEpochWritten : Nat
  records : Nat → Option HistoryData

/-- Modelled from the spec: `EncHistoryData.GetTargetData` (not in src) reads
the ring slot `target mod WeakSubjectivityPeriod`. -/
def getTargetData (ws : Nat) (h : EncHistoryData) (target : Nat) : Option HistoryData :=
  h.records (target % ws)

/-- Translated from `differenceOutsideWeakSubjectivityBounds` in
`attest_protect.go`: `latestEpochWritten >= wsPeriod && targetEpoch <=
latestEpochWritten-wsPeriod` (the guard makes the uint64 subtraction exact,
so `Nat` subtraction is faithful). -/
def differenceOutsideWeakSubjectivityBounds (ws latest target : Nat) : Bool :=
  decide (ws ≤ latest) && decide (target ≤ latest - ws)

/-- Translated from `surroundedByPrevAttestation` in `attest_protect.go`. -/
def surroundedByPrevAttestation (prevSource prevTarget newSource newTarget : Nat) : Bool :=
  decide (prevSource < newSource) && decide (newTarget < prevTarget)

/-- Translated from `surroundingPrevAttestation` in `attest_protect.go`. -/
def surroundingPrevAttestation (prevSource prevTarget newSource newTarget : Nat) : Bool :=
  decide (newSource < prevSource) && decide (prevTarget < newTarget)

/-- Translated from `checkHistoryAtTargetEpoch` in `attest_protect.go`:
returns `none` (the Go `nil`) when the epoch is outside the
weak-subjectivity window or beyond the latest written epoch, and otherwise
the ring record at `targetEpoch % wsPeriod` (which itself may be empty). -/
def checkHistoryAtTargetEpoch (ws : Nat) (h : EncHistoryData) (latest target : Nat) :
    Option HistoryData :=
  if differenceOutsideWeakSubjectivityBounds ws latest target then none
  else if target > latest then none
  else getTargetData ws h (target % ws)

/-- The inclusive epoch interval `[lo, hi]` scanned by the Go `for i := lo;
i <= hi; i++` loops (empty when `lo > hi`). -/
def epochRange (lo hi : Nat) : List Nat :=
  List.range' lo (hi + 1 - lo)

/-- First loop of `isSurroundVote` in `attest_protect.go`: scan epochs
`[sourceEpoch, targetEpoch]` for a previous attestation that the new vote
would surround. -/
def surroundingScan (ws : Nat) (h : EncHistoryData) (latest s t : Nat) : Bool :=
  (epochRange s t).any fun i =>
    match checkHistoryAtTargetEpoch ws h latest i with
    | none => false
    | some d => surroundingPrevAttestation d.source i s t

/-- Second loop of `isSurroundVote` in `attest_protect.go`: scan epochs
`[targetEpoch, latestEpochWritten]` for a previous attestation surrounding
the new vote. -/
def surroundedScan (ws : Nat) (h : EncHistoryData) (latest s t : Nat) : Bool :=
  (epochRange t latest).any fun i =>
    match checkHistoryAtTargetEpoch ws h latest i with
    | none => false
    | some d => surroundedByPrevAttestation d.source i s t

/-- Translated from `isSurroundVote` in `attest_protect.go`: the surrounding
scan runs first and short-circuits the surrounded scan. -/
def isSurroundVote (ws : Nat) (h : EncHistoryData) (latest s t : Nat) : Bool :=
  surroundingScan ws h latest s t || surroundedScan ws h latest s t

/-- The distinct ways `isNewAttSlashable` can answer, one per `return`
branch of the Go function (each slashable branch logs a distinct message:
double vote, surrounding, surrounded). -/
inductive Outcome where
  | Accepted
  | RejectedDoubleVote
  | RejectedSurrounding
  | RejectedSurrounded
deriving DecidableEq

/-- The double-vote condition of `isNewAttSlashable` in `attest_protect.go`:
the record at the target ring slot is non-empty and its signing root differs
from the new one (`!hd.IsEmpty() && !bytes.Equal(signingRoot[:],
hd.SigningRoot)`). -/
def doubleVoteDetected (ws : Nat) (h : EncHistoryData) (t root : Nat) : Bool :=
  match getTargetData ws h t with
  | none => false
  | some d => decide (d.signingRoot ≠ root)

/-- Translated from `isNewAttSlashable` in `attest_protect.go`: a `nil`
history is immediately not slashable; then the stale (weak-subjectivity)
check, the double-vote check at the target ring slot, and the two surround
scans, in source order.  The boolean result of the Go function is
`Outcome` is not `Accepted`. -/
def isNewAttSlashable (ws : Nat) (history : Option EncHistoryData) (s t root : Nat) : Outcome :=
  match history with
  | none => .Accepted
  | some h =>
    if differenceOutsideWeakSubjectivityBounds ws h.latestEpochWritten t then .Accepted
    else
      if doubleVoteDetected ws h t root then .RejectedDoubleVote
      else if surroundingScan ws h h.latestEpochWritten s t then .RejectedSurrounding
      else if surroundedScan ws h h.latestEpochWritten s t then .RejectedSurrounded
      else .Accepted

/-- Modelled from the spec: the lazily created all-empty attesting history
(spec sections 3 and 6; the store returns an all-empty default when a key is
absent). -/
def emptyHistory : EncHistoryData :=
  { latestEpochWritten := 0, records := fun _ => none }

/-- Modelled from the spec: `kv.MarkAllAsAttestedSinceLatestWrittenEpoch`
(not in src), spec section 4.1 step 6 — clear every ring slot of an epoch
strictly between `latestEpochWritten` and `target`, write the new record at
the slot of `target`, and raise `latestEpochWritten` to the maximum of its
old value and `target`. -/
def markAllAsAttestedSinceLatestWrittenEpoch (ws : Nat) (h : EncHistoryData)
    (target : Nat) (d : HistoryData) : EncHistoryData :=
  { latestEpochWritten := max h.latestEpochWritten target
    records := fun slot =>
      if slot = target % ws then some d
      else if (epochRange (h.latestEpochWritten + 1) (target - 1)).any
          (fun j => decide (j % ws = slot)) then none
      else h.records slot }

/-- Result of one `slashableAttestationCheck` call: either success or one of
the three error returns of the Go function (local protection, external
pre-check, external post-check). -/
inductive CheckOutcome where
  | ok
  | errLocalProtection
  | errExternalPre
  | errExternalPost
deriving DecidableEq

/-- The external slasher client of `validator.protector`, modelled by the
boolean answers of its two calls. -/
structure ProtectorModel where
  checkAttestationSafety : Bool
  commitAttestation : Bool

/-- Observable effects of one `slashableAttestationCheck` call: the history
written to the store (if any), whether each external call was made, and the
returned error (if any). -/
structure CheckEffects where
  savedHistory : Option EncHistoryData
  externalPreCalled : Bool
  externalCommitCalled : Bool
  result : CheckOutcome

/-- Translated from `slashableAttestationCheck` in `attest_protect.go`
(storage reads and writes are modelled as always succeeding): reject locally
before any write; otherwise mark and save the updated history, then run the
optional external pre-check and commit in that order, stopping at the first
failure. -/
def slashableAttestationCheck (ws : Nat) (dbHistory : Option EncHistoryData)
    (protector : Option ProtectorModel) (s t root : Nat) : CheckEffects :=
  if isNewAttSlashable ws dbHistory s t root ≠ .Accepted then
    { savedHistory := none, externalPreCalled := false,
      externalCommitCalled := false, result := .errLocalProtection }
  else
    let newHistory := markAllAsAttestedSinceLatestWrittenEpoch ws
      (dbHistory.getD emptyHistory) t ⟨s, root⟩
    match protector with
    | none =>
      { savedHistory := some newHistory, externalPreCalled := false,
        externalCommitCalled := false, result := .ok }
    | some p =>
      if !p.checkAttestationSafety then
        { savedHistory := some newHistory, externalPreCalled := true,
          externalCommitCalled := false, result := .errExternalPre }
      else if !p.commitAttestation then
        { savedHistory := some newHistory, externalPreCalled := true,
          externalCommitCalled := true, result := .errExternalPost }
      else
        { savedHistory := some newHistory, externalPreCalled := true,
          externalCommitCalled := true, result := .ok }

/-! ## Attestation aggregator

The aggregator implementation (`AggregatePair` / `Aggregate` of
`beacon-chain/core/helpers/attaggregation`) is not in the sources — only its
tests are — so it is modelled from the spec (sections 3, 4.2 and 8).  A
`BitVector` is modelled as the natural number whose binary digits are the
encoded bytes in little-endian order: the logical length is the index of the
highest set bit (the sentinel), the flag bits are the value below the
sentinel. -/

/-- Fuel-driven binary length: `bitlenAux fuel n` is the number of binary
digits of `n` whenever `n ≤ fuel`. -/
def bitlenAux : Nat → Nat → Nat
  | 0, _ => 0
  | _ + 1, 0 => 0
  | fuel + 1, n + 1 => bitlenAux fuel ((n + 1) / 2) + 1

/-- Number of binary digits of `n` (0 for 0). -/
def bitlen (n : Nat) : Nat := bitlenAux n n

/-- Modelled from the spec: the logical length of a BitVector is the index
of its highest set bit — the sentinel bit position (section 3). -/
def logicalLen (b : Nat) : Nat := bitlen b - 1

/-- Modelled from the spec: the flag bits of a BitVector are its bits with
the sentinel masked out (section 3). -/
def flagBits (b : Nat) : Nat := b % 2 ^ logicalLen b

/-- Modelled from the spec: the BitVector overlap test — the flag-bit
intersection, sentinel masked out, is non-empty (sections 2 and 4.2). -/
def overlapsBits (a b : Nat) : Bool := decide (flagBits a &&& flagBits b ≠ 0)

/-- Modelled from the spec: the BitVector subset test — all flag bits of
`a` are flag bits of `b` (sections 2 and 4.2). -/
def subsetBits (a b : Nat) : Bool := decide (flagBits a &&& flagBits b = flagBits a)

/-- Modelled from the spec: equal logical length — the sentinel bit indices
match (section 3). -/
def sameLen (a b : Nat) : Bool := decide (logicalLen a = logicalLen b)

/-- Errors of the aggregator (`ErrBitsDifferentLen` / `ErrBitsOverlap` in
the tests). -/
inductive AggError where
  | BitlistLengthMismatch
  | BitlistOverlap
deriving DecidableEq

instance (α β : Type) [DecidableEq α] [DecidableEq β] : DecidableEq (Except α β) := fun x y =>
  match x, y with
  | .error a, .error b =>
    if h : a = b then .isTrue (by rw [h]) else .isFalse (by intro hc; cases hc; exact h rfl)
  | .ok a, .ok b =>
    if h : a = b then .isTrue (by rw [h]) else .isFalse (by intro hc; cases hc; exact h rfl)
  | .error _, .ok _ => .isFalse (by intro hc; cases hc)
  | .ok _, .error _ => .isFalse (by intro hc; cases hc)

/-- Modelled from the spec: `AggregatePair` (spec `PairwiseMerge`, section
4.2) — requires equal logical length, then an empty flag-bit intersection,
and returns the bitwise union (which keeps the shared sentinel). -/
def AggregatePair (a b : Nat) : Except AggError Nat :=
  if logicalLen a ≠ logicalLen b then .error .BitlistLengthMismatch
  else if overlapsBits a b then .error .BitlistOverlap
  else .ok (a ||| b)

/-- Modelled from the spec: one step of the within-class greedy grouping of
`Aggregate` — union the incoming attestation into the first group of its
length class it does not overlap, else start a new group (section 4.2). -/
def mergeIntoFirst : List Nat → Nat → List Nat
  | [], att => [att]
  | g :: gs, att =>
    if sameLen g att && !overlapsBits g att then (g ||| att) :: gs
    else g :: mergeIntoFirst gs att

/-- Modelled from the spec: the greedy grouping pass of `Aggregate` over the
inputs in order (section 4.2). -/
def mergePass (atts : List Nat) : List Nat :=
  atts.foldl mergeIntoFirst []

/-- Modelled from the spec: one step of duplicate elimination — a group
whose flag bits are a subset of a surviving group of the same length class
is dropped, and it supersedes the kept groups it covers (sections 4.2 and
8, duplicate/subsumed groups are not re-emitted). -/
def dedupInsert (kept : List Nat) (g : Nat) : List Nat :=
  if kept.any (fun h => sameLen g h && subsetBits g h) then kept
  else kept.filter (fun h => !(sameLen h g && subsetBits h g)) ++ [g]

/-- Modelled from the spec: duplicate elimination over the surviving groups
(sections 4.2 and 8). -/
def dedup (groups : List Nat) : List Nat :=
  groups.foldl dedupInsert []

/-- Modelled from the spec: `Aggregate` (spec `FullAggregate`) — the greedy
grouping pass followed by duplicate elimination; only the surviving groups
are emitted (sections 4.2 and 8). -/
def Aggregate (atts : List Nat) : List Nat :=
  dedup (mergePass atts)

/-- The grouping step again, now calling `AggregatePair` for the union the
way the Go code does, to show the pair-merge preconditions always hold. -/
def mergeIntoFirstChecked : List Nat → Nat → Except AggError (List Nat)
  | [], att => .ok [att]
  | g :: gs, att =>
    if sameLen g att && !overlapsBits g att then
      match AggregatePair g att with
      | .error e => .error e
      | .ok m => .ok (m :: gs)
    else
      match mergeIntoFirstChecked gs att with
      | .error e => .error e
      | .ok gs1 => .ok (g :: gs1)

/-- The grouping pass with `AggregatePair` error propagation. -/
def mergePassChecked (atts : List Nat) : Except AggError (List Nat) :=
  atts.foldlM mergeIntoFirstChecked []

/-- Modelled from the spec: `Aggregate` with the error plumbing of the Go
signature (errors could only arise from `AggregatePair`). -/
def AggregateChecked (atts : List Nat) : Except AggError (List Nat) :=
  match mergePassChecked atts with
  | .error e => .error e
  | .ok groups => .ok (dedup groups)

/-! ## Helper lemmas: slashing protector -/

theorem staleBounds_eq_true_iff (ws latest target : Nat) :
    differenceOutsideWeakSubjectivityBounds ws latest target = true ↔
      ws ≤ latest ∧ target ≤ latest - ws := by
  simp [differenceOutsideWeakSubjectivityBounds]

theorem staleBounds_eq_false_iff (ws latest target : Nat) :
    differenceOutsideWeakSubjectivityBounds ws latest target = false ↔
      ¬(ws ≤ latest ∧ target ≤ latest - ws) := by
  rw [← Bool.not_eq_true, staleBounds_eq_true_iff]

theorem staleBounds_mono (ws latest latest1 target : Nat) (hl : latest ≤ latest1)
    (h : differenceOutsideWeakSubjectivityBounds ws latest target = true) :
    differenceOutsideWeakSubjectivityBounds ws latest1 target = true := by
  rw [staleBounds_eq_true_iff] at h ⊢
  omega

theorem mem_epochRange {i lo hi : Nat} : i ∈ epochRange lo hi ↔ lo ≤ i ∧ i ≤ hi := by
  unfold epochRange
  rw [List.mem_range'_1]
  omega

theorem matchRecord_eq_true (o : Option HistoryData) (p : HistoryData → Bool) :
    (match o with | none => false | some d => p d) = true ↔
      ∃ d, o = some d ∧ p d = true := by
  cases o <;> simp

theorem checkHistory_eq_some_iff (ws : Nat) (h : EncHistoryData) (latest target : Nat)
    (d : HistoryData) :
    checkHistoryAtTargetEpoch ws h latest target = some d ↔
      differenceOutsideWeakSubjectivityBounds ws latest target = false ∧
      target ≤ latest ∧ h.records (target % ws) = some d := by
  unfold checkHistoryAtTargetEpoch getTargetData
  rcases hb : differenceOutsideWeakSubjectivityBounds ws latest target with _ | _
  · rw [if_neg (by simp), Nat.mod_mod_of_dvd target (dvd_refl ws)]
    by_cases hlt : target > latest
    · rw [if_pos hlt]
      simp
      omega
    · rw [if_neg hlt]
      simp
      omega
  · rw [if_pos rfl]
    simp

theorem surroundingScan_eq_true_iff (ws : Nat) (h : EncHistoryData) (latest s t : Nat) :
    surroundingScan ws h latest s t = true ↔
      ∃ i, s ≤ i ∧ i ≤ t ∧ ∃ d, checkHistoryAtTargetEpoch ws h latest i = some d ∧
        surroundingPrevAttestation d.source i s t = true := by
  unfold surroundingScan
  rw [List.any_eq_true]
  constructor
  · rintro ⟨i, hmem, hp⟩
    rw [mem_epochRange] at hmem
    rw [matchRecord_eq_true] at hp
    exact ⟨i, hmem.1, hmem.2, hp⟩
  · rintro ⟨i, h1, h2, hp⟩
    refine ⟨i, mem_epochRange.2 ⟨h1, h2⟩, ?_⟩
    rw [matchRecord_eq_true]
    exact hp

theorem surroundedScan_eq_true_iff (ws : Nat) (h : EncHistoryData) (latest s t : Nat) :
    surroundedScan ws h latest s t = true ↔
      ∃ i, t ≤ i ∧ i ≤ latest ∧ ∃ d, checkHistoryAtTargetEpoch ws h latest i = some d ∧
        surroundedByPrevAttestation d.source i s t = true := by
  unfold surroundedScan
  rw [List.any_eq_true]
  constructor
  · rintro ⟨i, hmem, hp⟩
    rw [mem_epochRange] at hmem
    rw [matchRecord_eq_true] at hp
    exact ⟨i, hmem.1, hmem.2, hp⟩
  · rintro ⟨i, h1, h2, hp⟩
    refine ⟨i, mem_epochRange.2 ⟨h1, h2⟩, ?_⟩
    rw [matchRecord_eq_true]
    exact hp

/-! ## Claim theorems (slashing protector, part 1) -/

/-- Claim C2: within `isSurroundVote`, the surrounding scan fires exactly
when some epoch `i` in `[sourceEpoch, targetEpoch]`, not beyond the latest
written epoch and inside the weak-subjectivity window, holds a non-empty
record whose stored source `prevS` satisfies `newSource < prevS` and
`i < newTarget`; the surrounded scan fires exactly when some epoch `i` in
`[targetEpoch, latestEpochWritten]`, under the same window conditions, holds
a non-empty record with `prevS < newSource` and `newTarget < i`. -/
theorem claim_C2_surround_scans (ws : Nat) (h : EncHistoryData) (latest s t : Nat) :
    (surroundingScan ws h latest s t = true ↔
      ∃ i, s ≤ i ∧ i ≤ t ∧ i ≤ latest ∧ ¬(ws ≤ latest ∧ i ≤ latest - ws) ∧
        ∃ d, h.records (i % ws) = some d ∧ s < d.source ∧ i < t) ∧
    (surroundedScan ws h latest s t = true ↔
      ∃ i, t ≤ i ∧ i ≤ latest ∧ ¬(ws ≤ latest ∧ i ≤ latest - ws) ∧
        ∃ d, h.records (i % ws) = some d ∧ d.source < s ∧ t < i) ∧
    isSurroundVote ws h latest s t =
      (surroundingScan ws h latest s t || surroundedScan ws h latest s t) := by
  refine ⟨?_, ?_, rfl⟩
  · rw [surroundingScan_eq_true_iff]
    constructor
    · rintro ⟨i, h1, h2, d, hcheck, hpred⟩
      rw [checkHistory_eq_some_iff] at hcheck
      rw [staleBounds_eq_false_iff] at hcheck
      simp only [surroundingPrevAttestation, Bool.and_eq_true, decide_eq_true_eq] at hpred
      exact ⟨i, h1, h2, hcheck.2.1, hcheck.1, d, hcheck.2.2, hpred.1, hpred.2⟩
    · rintro ⟨i, h1, h2, h3, h4, d, hrec, h5, h6⟩
      refine ⟨i, h1, h2, d, ?_, ?_⟩
      · rw [checkHistory_eq_some_iff, staleBounds_eq_false_iff]
        exact ⟨h4, h3, hrec⟩
      · simp only [surroundingPrevAttestation, Bool.and_eq_true, decide_eq_true_eq]
        exact ⟨h5, h6⟩
  · rw [surroundedScan_eq_true_iff]
    constructor
    · rintro ⟨i, h1, h2, d, hcheck, hpred⟩
      rw [checkHistory_eq_some_iff] at hcheck
      rw [staleBounds_eq_false_iff] at hcheck
      simp only [surroundedByPrevAttestation, Bool.and_eq_true, decide_eq_true_eq] at hpred
      exact ⟨i, h1, h2, hcheck.1, d, hcheck.2.2, hpred.1, hpred.2⟩
    · rintro ⟨i, h1, h2, h3, d, hrec, h4, h5⟩
      refine ⟨i, h1, h2, d, ?_, ?_⟩
      · rw [checkHistory_eq_some_iff, staleBounds_eq_false_iff]
        exact ⟨h3, h2, hrec⟩
      · simp only [surroundedByPrevAttestation, Bool.and_eq_true, decide_eq_true_eq]
        exact ⟨h4, h5⟩

/-- Claim C3: when `latestEpochWritten ≥ WeakSubjectivityPeriod` and
`targetEpoch ≤ latestEpochWritten − WeakSubjectivityPeriod`, the check
returns Accepted immediately for every source epoch, signing root and set of
stored records. -/
theorem claim_C3_stale_accepted (ws : Nat) (h : EncHistoryData) (s t root : Nat)
    (h1 : ws ≤ h.latestEpochWritten) (h2 : t ≤ h.latestEpochWritten - ws) :
    isNewAttSlashable ws (some h) s t root = .Accepted := by
  show (if differenceOutsideWeakSubjectivityBounds ws h.latestEpochWritten t then _ else _) =
    Outcome.Accepted
  rw [if_pos ((staleBounds_eq_true_iff ws h.latestEpochWritten t).2 ⟨h1, h2⟩)]

/-- Concrete history used by witnesses: latest written epoch 3 and a
conflicting non-empty record at every slot. -/
def witnessHistory : EncHistoryData :=
  { latestEpochWritten := 3, records := fun _ => some ⟨9, 99⟩ }

/-- Witness for C3: a concrete stale vote is accepted although every slot
holds a conflicting record. -/
theorem claim_C3_witness :
    isNewAttSlashable 2 (some witnessHistory) 0 1 7 = .Accepted :=
  claim_C3_stale_accepted 2 witnessHistory 0 1 7 (by decide) (by decide)

/-- Claim C9: a `nil` attesting history is treated as not slashable for
every source epoch, target epoch and signing root, so
`slashableAttestationCheck` records the vote and succeeds. -/
theorem claim_C9_nil_history (ws s t root : Nat) :
    isNewAttSlashable ws none s t root = .Accepted ∧
    (slashableAttestationCheck ws none none s t root).result = .ok ∧
    (slashableAttestationCheck ws none none s t root).savedHistory =
      some (markAllAsAttestedSinceLatestWrittenEpoch ws emptyHistory t ⟨s, root⟩) := by
  refine ⟨rfl, ?_, ?_⟩ <;> rfl

/-! ## Helper lemmas: marking a vote, and the non-stale unfolding -/

theorem isNewAttSlashable_some (ws : Nat) (h : EncHistoryData) (s t root : Nat) :
    isNewAttSlashable ws (some h) s t root =
      if differenceOutsideWeakSubjectivityBounds ws h.latestEpochWritten t then .Accepted
      else if doubleVoteDetected ws h t root then .RejectedDoubleVote
      else if surroundingScan ws h h.latestEpochWritten s t then .RejectedSurrounding
      else if surroundedScan ws h h.latestEpochWritten s t then .RejectedSurrounded
      else .Accepted := rfl

theorem bool_eq_false_of_not_true {b : Bool} (h : ¬ b = true) : b = false := by
  cases b
  · rfl
  · exact absurd rfl h

theorem doubleVoteDetected_eq_true_iff (ws : Nat) (h : EncHistoryData) (t root : Nat) :
    doubleVoteDetected ws h t root = true ↔
      ∃ d, h.records (t % ws) = some d ∧ d.signingRoot ≠ root := by
  unfold doubleVoteDetected getTargetData
  cases hrec : h.records (t % ws) with
  | none => simp
  | some d =>
    simp only [decide_eq_true_eq]
    constructor
    · intro hne
      exact ⟨d, rfl, hne⟩
    · rintro ⟨d1, hd1, hne⟩
      cases hd1
      exact hne

theorem mark_latest (ws : Nat) (h : EncHistoryData) (t : Nat) (d : HistoryData) :
    (markAllAsAttestedSinceLatestWrittenEpoch ws h t d).latestEpochWritten =
      max h.latestEpochWritten t := rfl

theorem mark_records_target (ws : Nat) (h : EncHistoryData) (t : Nat) (d : HistoryData) :
    (markAllAsAttestedSinceLatestWrittenEpoch ws h t d).records (t % ws) = some d := by
  show (if t % ws = t % ws then some d else _) = some d
  rw [if_pos rfl]

theorem mark_records_cleared (ws : Nat) (h : EncHistoryData) (t : Nat) (d : HistoryData)
    (slot : Nat) (hne : slot ≠ t % ws) (j : Nat) (hj1 : h.latestEpochWritten < j)
    (hj2 : j < t) (hj3 : j % ws = slot) :
    (markAllAsAttestedSinceLatestWrittenEpoch ws h t d).records slot = none := by
  show (if slot = t % ws then some d else
    if (epochRange (h.latestEpochWritten + 1) (t - 1)).any (fun j => decide (j % ws = slot))
    then none else h.records slot) = none
  rw [if_neg hne, if_pos]
  rw [List.any_eq_true]
  exact ⟨j, mem_epochRange.2 ⟨by omega, by omega⟩, by simp [hj3]⟩

theorem mark_records_untouched (ws : Nat) (h : EncHistoryData) (t : Nat) (d : HistoryData)
    (slot : Nat) (hne : slot ≠ t % ws)
    (hnc : ∀ j, h.latestEpochWritten < j → j < t → j % ws ≠ slot) :
    (markAllAsAttestedSinceLatestWrittenEpoch ws h t d).records slot = h.records slot := by
  show (if slot = t % ws then some d else
    if (epochRange (h.latestEpochWritten + 1) (t - 1)).any (fun j => decide (j % ws = slot))
    then none else h.records slot) = h.records slot
  rw [if_neg hne, if_neg]
  rw [List.any_eq_true]
  rintro ⟨j, hmem, hj⟩
  rw [mem_epochRange] at hmem
  simp only [decide_eq_true_eq] at hj
  exact hnc j (by omega) (by omega) hj

theorem accepted_components (ws : Nat) (h : EncHistoryData) (s t root : Nat)
    (hns : differenceOutsideWeakSubjectivityBounds ws h.latestEpochWritten t = false)
    (hacc : isNewAttSlashable ws (some h) s t root = .Accepted) :
    doubleVoteDetected ws h t root = false ∧
    surroundingScan ws h h.latestEpochWritten s t = false ∧
    surroundedScan ws h h.latestEpochWritten s t = false := by
  rw [isNewAttSlashable_some, if_neg (by rw [hns]; exact Bool.false_ne_true)] at hacc
  rcases hd : doubleVoteDetected ws h t root with _ | _ <;> rw [hd] at hacc <;>
    rcases h1 : surroundingScan ws h h.latestEpochWritten s t with _ | _ <;>
      rw [h1] at hacc <;>
    rcases h2 : surroundedScan ws h h.latestEpochWritten s t with _ | _ <;>
      rw [h2] at hacc <;> simp_all

/-! ## Claim C1 -/

/-- Claim C1: when the stale rule does not apply, the check rejects as a
double vote exactly when the history record at the target ring slot
(`targetEpoch mod WeakSubjectivityPeriod`, the slot of records whose target
epoch is the requested one) is non-empty and its stored signing root differs
from the new one; and re-submitting an accepted vote with identical source,
target and root is again accepted (idempotent re-vote). -/
theorem claim_C1_double_vote (ws : Nat) (h : EncHistoryData) (s t root : Nat)
    (hns : differenceOutsideWeakSubjectivityBounds ws h.latestEpochWritten t = false) :
    (isNewAttSlashable ws (some h) s t root = .RejectedDoubleVote ↔
      ∃ d, h.records (t % ws) = some d ∧ d.signingRoot ≠ root) ∧
    (isNewAttSlashable ws (some h) s t root = .Accepted →
      isNewAttSlashable ws
        (some (markAllAsAttestedSinceLatestWrittenEpoch ws h t ⟨s, root⟩)) s t root =
        .Accepted) := by
  constructor
  · rw [← doubleVoteDetected_eq_true_iff]
    rw [isNewAttSlashable_some, if_neg (by rw [hns]; exact Bool.false_ne_true)]
    rcases hd : doubleVoteDetected ws h t root with _ | _ <;>
      rcases h1 : surroundingScan ws h h.latestEpochWritten s t with _ | _ <;>
      rcases h2 : surroundedScan ws h h.latestEpochWritten s t with _ | _ <;> simp
  · intro hacc
    obtain ⟨hdbl, hs1, hs2⟩ := accepted_components ws h s t root hns hacc
    rw [isNewAttSlashable_some]
    by_cases hst : differenceOutsideWeakSubjectivityBounds ws
      (markAllAsAttestedSinceLatestWrittenEpoch ws h t ⟨s, root⟩).latestEpochWritten t = true
    · rw [if_pos hst]
    · have hstf := bool_eq_false_of_not_true hst
      rw [if_neg hst]
      have hLle : h.latestEpochWritten ≤
          (markAllAsAttestedSinceLatestWrittenEpoch ws h t ⟨s, root⟩).latestEpochWritten := by
        rw [mark_latest]
        exact Nat.le_max_left _ _
      have hrecTarget := mark_records_target ws h t ⟨s, root⟩
      have hd1 : doubleVoteDetected ws
          (markAllAsAttestedSinceLatestWrittenEpoch ws h t ⟨s, root⟩) t root = false := by
        unfold doubleVoteDetected getTargetData
        rw [hrecTarget]
        simp
      have noFire : ∀ i d2,
          checkHistoryAtTargetEpoch ws (markAllAsAttestedSinceLatestWrittenEpoch ws h t
            ⟨s, root⟩) (markAllAsAttestedSinceLatestWrittenEpoch ws h t
            ⟨s, root⟩).latestEpochWritten i = some d2 →
          checkHistoryAtTargetEpoch ws h h.latestEpochWritten i = some d2 ∨
          (d2 = ⟨s, root⟩ ∧ i % ws = t % ws) := by
        intro i d2 hcheck
        rw [checkHistory_eq_some_iff] at hcheck
        obtain ⟨hstI, hiL1, hrec⟩ := hcheck
        by_cases hslot : i % ws = t % ws
        · right
          rw [hslot, hrecTarget] at hrec
          exact ⟨Option.some.inj hrec.symm, hslot⟩
        · by_cases hclear : ∃ j, h.latestEpochWritten < j ∧ j < t ∧ j % ws = i % ws
          · obtain ⟨j, hj1, hj2, hj3⟩ := hclear
            rw [mark_records_cleared ws h t ⟨s, root⟩ (i % ws) hslot j hj1 hj2 hj3] at hrec
            cases hrec
          · push_neg at hclear
            rw [mark_records_untouched ws h t ⟨s, root⟩ (i % ws) hslot hclear] at hrec
            left
            have hiL : i ≤ h.latestEpochWritten := by
              by_contra hgt
              push_neg at hgt
              rw [mark_latest] at hiL1
              have hile : i ≤ t := by
                rcases Nat.le_total h.latestEpochWritten t with ho | ho
                · rw [Nat.max_eq_right ho] at hiL1
                  exact hiL1
                · rw [Nat.max_eq_left ho] at hiL1
                  omega
              have hilt : i < t := by
                rcases Nat.lt_or_ge i t with hlt | hge
                · exact hlt
                · exact absurd (congrArg (fun x => x % ws) (Nat.le_antisymm hile hge)) hslot
              exact hclear i hgt hilt rfl
            have hstL : differenceOutsideWeakSubjectivityBounds ws h.latestEpochWritten i
                = false := by
              rcases hb : differenceOutsideWeakSubjectivityBounds ws h.latestEpochWritten i
                with _ | _
              · rfl
              · rw [staleBounds_mono ws h.latestEpochWritten _ i hLle hb] at hstI
                cases hstI
            rw [checkHistory_eq_some_iff]
            exact ⟨hstL, hiL, hrec⟩
      have hscan1 : surroundingScan ws (markAllAsAttestedSinceLatestWrittenEpoch ws h t
          ⟨s, root⟩) (markAllAsAttestedSinceLatestWrittenEpoch ws h t
          ⟨s, root⟩).latestEpochWritten s t = false := by
        apply bool_eq_false_of_not_true
        rw [surroundingScan_eq_true_iff]
        rintro ⟨i, hi1, hi2, d2, hcheck, hpred⟩
        rcases noFire i d2 hcheck with hold | ⟨hdv, _⟩
        · have : surroundingScan ws h h.latestEpochWritten s t = true :=
            (surroundingScan_eq_true_iff ws h h.latestEpochWritten s t).2
              ⟨i, hi1, hi2, d2, hold, hpred⟩
          rw [hs1] at this
          cases this
        · rw [hdv] at hpred
          simp [surroundingPrevAttestation] at hpred
      have hscan2 : surroundedScan ws (markAllAsAttestedSinceLatestWrittenEpoch ws h t
          ⟨s, root⟩) (markAllAsAttestedSinceLatestWrittenEpoch ws h t
          ⟨s, root⟩).latestEpochWritten s t = false := by
        apply bool_eq_false_of_not_true
        rw [surroundedScan_eq_true_iff]
        rintro ⟨i, hi1, hi2, d2, hcheck, hpred⟩
        rcases noFire i d2 hcheck with hold | ⟨hdv, _⟩
        · have hiLe : i ≤ h.latestEpochWritten := by
            rw [checkHistory_eq_some_iff] at hold
            exact hold.2.1
          have : surroundedScan ws h h.latestEpochWritten s t = true :=
            (surroundedScan_eq_true_iff ws h h.latestEpochWritten s t).2
              ⟨i, hi1, hiLe, d2, hold, hpred⟩
          rw [hs2] at this
          cases this
        · rw [hdv] at hpred
          simp [surroundedByPrevAttestation] at hpred
      rw [hd1, hscan1, hscan2]
      simp

/-- Witness for C1 at a concrete non-stale vote. -/
theorem claim_C1_witness :
    (isNewAttSlashable 5 (some witnessHistory) 2 4 99 = .RejectedDoubleVote ↔
      ∃ d, witnessHistory.records (4 % 5) = some d ∧ d.signingRoot ≠ 99) ∧
    (isNewAttSlashable 5 (some witnessHistory) 2 4 99 = .Accepted →
      isNewAttSlashable 5
        (some (markAllAsAttestedSinceLatestWrittenEpoch 5 witnessHistory 4 ⟨2, 99⟩)) 2 4 99 =
        .Accepted) :=
  claim_C1_double_vote 5 witnessHistory 2 4 99 (by decide)

/-! ## Claim C4 -/

/-- Claim C4: a locally slashable vote returns the local-protection error
before any history write and without any external call; on the
locally-accepted path the updated history is saved before the external
pre-check runs, so a pre-check rejection leaves the new history saved and
skips the commit call; and a successful result implies the local check and
both configured external answers passed, so every rejection returns an
error. -/
theorem slashableAttestationCheck_of_rejected (ws : Nat) (dbHistory : Option EncHistoryData)
    (p : Option ProtectorModel) (s t root : Nat)
    (hsl : isNewAttSlashable ws dbHistory s t root ≠ .Accepted) :
    slashableAttestationCheck ws dbHistory p s t root =
      ⟨none, false, false, .errLocalProtection⟩ := by
  unfold slashableAttestationCheck
  rw [if_pos hsl]

theorem slashableAttestationCheck_of_accepted (ws : Nat) (dbHistory : Option EncHistoryData)
    (p : Option ProtectorModel) (s t root : Nat)
    (hsl : isNewAttSlashable ws dbHistory s t root = .Accepted) :
    slashableAttestationCheck ws dbHistory p s t root =
      { savedHistory := some (markAllAsAttestedSinceLatestWrittenEpoch ws
          (dbHistory.getD emptyHistory) t ⟨s, root⟩)
        externalPreCalled := p.isSome
        externalCommitCalled :=
          match p with
          | none => false
          | some pm => pm.checkAttestationSafety
        result :=
          match p with
          | none => .ok
          | some pm =>
            if !pm.checkAttestationSafety then .errExternalPre
            else if !pm.commitAttestation then .errExternalPost
            else .ok } := by
  unfold slashableAttestationCheck
  rw [if_neg (by simp [hsl])]
  rcases p with _ | pm
  · rfl
  · rcases hcs : pm.checkAttestationSafety with _ | _ <;>
      rcases hcm : pm.commitAttestation with _ | _ <;> simp [hcs, hcm]

theorem claim_C4_effect_ordering (ws : Nat) (dbHistory : Option EncHistoryData)
    (p : Option ProtectorModel) (s t root : Nat) :
    (isNewAttSlashable ws dbHistory s t root ≠ .Accepted →
      slashableAttestationCheck ws dbHistory p s t root =
        ⟨none, false, false, .errLocalProtection⟩) ∧
    (isNewAttSlashable ws dbHistory s t root = .Accepted →
      (slashableAttestationCheck ws dbHistory p s t root).savedHistory =
        some (markAllAsAttestedSinceLatestWrittenEpoch ws (dbHistory.getD emptyHistory) t
          ⟨s, root⟩)) ∧
    (∀ pm, p = some pm → pm.checkAttestationSafety = false →
      isNewAttSlashable ws dbHistory s t root = .Accepted →
      (slashableAttestationCheck ws dbHistory p s t root).result = .errExternalPre ∧
      (slashableAttestationCheck ws dbHistory p s t root).externalCommitCalled = false) ∧
    ((slashableAttestationCheck ws dbHistory p s t root).result = .ok →
      isNewAttSlashable ws dbHistory s t root = .Accepted ∧
      ∀ pm, p = some pm → pm.checkAttestationSafety = true ∧ pm.commitAttestation = true) := by
  refine ⟨fun hne => slashableAttestationCheck_of_rejected ws dbHistory p s t root hne,
    ?_, ?_, ?_⟩
  · intro hacc
    rw [slashableAttestationCheck_of_accepted ws dbHistory p s t root hacc]
  · rintro pm rfl hcs hacc
    rw [slashableAttestationCheck_of_accepted ws dbHistory (some pm) s t root hacc]
    refine ⟨?_, ?_⟩ <;> simp [hcs]
  · intro hok
    by_cases hsl : isNewAttSlashable ws dbHistory s t root = .Accepted
    · refine ⟨hsl, ?_⟩
      rintro pm rfl
      rw [slashableAttestationCheck_of_accepted ws dbHistory (some pm) s t root hsl] at hok
      rcases hcs : pm.checkAttestationSafety with _ | _ <;>
        rcases hcm : pm.commitAttestation with _ | _ <;>
          simp [hcs, hcm] at hok ⊢
    · rw [slashableAttestationCheck_of_rejected ws dbHistory p s t root hsl] at hok
      cases hok

/-! ## Claim C10: termination of the surround-vote scans -/

/-- Largest uint64 value. -/
def uintMax : Nat := 2 ^ 64 - 1

/-- The Go loop `for i := lo; i <= upper; i++` over a uint64 counter,
modelled with explicit wraparound and a fuel bound on the number of
loop-condition evaluations; `none` means the fuel ran out before the loop
exited. -/
def forLoopU64 (body : Nat → Bool) (upper : Nat) : Nat → Nat → Option Bool
  | 0, _ => none
  | fuel + 1, i =>
    if i ≤ upper then
      if body i then some true
      else forLoopU64 body upper fuel ((i + 1) % (uintMax + 1))
    else some false

/-- First loop of `isSurroundVote` as a fuelled uint64 loop. -/
def surroundingScanLoop (ws : Nat) (h : EncHistoryData) (latest s t fuel : Nat) : Option Bool :=
  forLoopU64 (fun i =>
    match checkHistoryAtTargetEpoch ws h latest i with
    | none => false
    | some d => surroundingPrevAttestation d.source i s t) t fuel s

/-- Second loop of `isSurroundVote` as a fuelled uint64 loop. -/
def surroundedScanLoop (ws : Nat) (h : EncHistoryData) (latest s t fuel : Nat) : Option Bool :=
  forLoopU64 (fun i =>
    match checkHistoryAtTargetEpoch ws h latest i with
    | none => false
    | some d => surroundedByPrevAttestation d.source i s t) latest fuel t

/-- `isSurroundVote` as the sequential composition of the two fuelled
loops. -/
def isSurroundVoteLoop (ws : Nat) (h : EncHistoryData) (latest s t fuel1 fuel2 : Nat) :
    Option Bool :=
  match surroundingScanLoop ws h latest s t fuel1 with
  | none => none
  | some true => some true
  | some false => surroundedScanLoop ws h latest s t fuel2

theorem forLoopU64_eq_any (body : Nat → Bool) (upper : Nat) (hup : upper < uintMax) :
    ∀ fuel lo, 0 < fuel → upper + 2 - lo ≤ fuel →
      forLoopU64 body upper fuel lo = some ((epochRange lo upper).any body) := by
  intro fuel
  induction fuel with
  | zero =>
    intro lo hpos _
    omega
  | succ fuel ih =>
    intro lo _ hle
    by_cases hio : lo ≤ upper
    · have hrange : epochRange lo upper = lo :: epochRange (lo + 1) upper := by
        unfold epochRange
        have he : upper + 1 - lo = (upper + 1 - (lo + 1)) + 1 := by omega
        rw [he, List.range'_succ]
      show (if lo ≤ upper then _ else _) = _
      rw [if_pos hio, hrange, List.any_cons]
      by_cases hb : body lo = true
      · rw [if_pos hb, hb]
        rfl
      · rw [if_neg hb, bool_eq_false_of_not_true hb]
        have hmod : (lo + 1) % (uintMax + 1) = lo + 1 :=
          Nat.mod_eq_of_lt (by unfold uintMax at hup ⊢; omega)
        rw [hmod, ih (lo + 1) (by omega) (by omega)]
        rfl
    · show (if lo ≤ upper then _ else _) = _
      rw [if_neg hio]
      have hempty : epochRange lo upper = [] := by
        unfold epochRange
        have he : upper + 1 - lo = 0 := by omega
        rw [he]
        rfl
      rw [hempty]
      rfl

/-- Claim C10: when the target epoch and the latest written epoch are both
strictly below the maximum uint64 value, both scans of `isSurroundVote`
terminate: with wraparound arithmetic made explicit, any fuel of at least
`upperBound − lowerBound + 2` loop-condition evaluations (one per iteration
plus the final exit test) completes each scan, and the combined result is
the value of `isSurroundVote`. -/
theorem claim_C10_loop_termination (ws : Nat) (h : EncHistoryData) (latest s t : Nat)
    (ht : t < uintMax) (hl : latest < uintMax) (fuel1 fuel2 : Nat)
    (hf1 : 0 < fuel1) (hf1b : t + 2 - s ≤ fuel1)
    (hf2 : 0 < fuel2) (hf2b : latest + 2 - t ≤ fuel2) :
    isSurroundVoteLoop ws h latest s t fuel1 fuel2 =
      some (isSurroundVote ws h latest s t) := by
  unfold isSurroundVoteLoop surroundingScanLoop surroundedScanLoop
  rw [forLoopU64_eq_any _ t ht fuel1 s hf1 hf1b,
    forLoopU64_eq_any _ latest hl fuel2 t hf2 hf2b]
  unfold isSurroundVote surroundingScan surroundedScan
  rcases hb : (epochRange s t).any fun i =>
      match checkHistoryAtTargetEpoch ws h latest i with
      | none => false
      | some d => surroundingPrevAttestation d.source i s t with _ | _
  · simp
  · simp

/-- Witness for C10 at concrete bounds and fuels. -/
theorem claim_C10_witness :
    isSurroundVoteLoop 5 witnessHistory 3 1 2 4 6 =
      some (isSurroundVote 5 witnessHistory 3 1 2) :=
  claim_C10_loop_termination 5 witnessHistory 3 1 2 (by decide) (by decide) 4 6
    (by decide) (by decide) (by decide) (by decide)

/-- Witness for C4: a concrete locally slashable vote (conflicting root at
the target slot) is rejected with no write and no external call. -/
theorem claim_C4_witness :
    slashableAttestationCheck 5 (some witnessHistory) none 2 4 7 =
      ⟨none, false, false, .errLocalProtection⟩ :=
  (claim_C4_effect_ordering 5 (some witnessHistory) none 2 4 7).1 (by decide)

/-! ## Helper lemmas: bit lengths and flag bits -/

theorem bitlenAux_le_iff : ∀ fuel n, n ≤ fuel → ∀ k, (bitlenAux fuel n ≤ k ↔ n < 2 ^ k) := by
  intro fuel
  induction fuel with
  | zero =>
    intro n hn k
    have hz : n = 0 := Nat.le_zero.1 hn
    subst hz
    simp [bitlenAux, Nat.two_pow_pos k]
  | succ fuel ih =>
    intro n hn k
    cases n with
    | zero => simp [bitlenAux, Nat.two_pow_pos k]
    | succ m =>
      show bitlenAux fuel ((m + 1) / 2) + 1 ≤ k ↔ m + 1 < 2 ^ k
      cases k with
      | zero =>
        simp only [Nat.pow_zero]
        omega
      | succ k =>
        rw [Nat.add_le_add_iff_right, ih ((m + 1) / 2) (by omega) k, Nat.pow_succ]
        rw [Nat.div_lt_iff_lt_mul (by norm_num : 0 < 2)]

theorem bitlen_le_iff (n k : Nat) : bitlen n ≤ k ↔ n < 2 ^ k :=
  bitlenAux_le_iff n n le_rfl k

theorem lt_bitlen_iff (n k : Nat) : k < bitlen n ↔ 2 ^ k ≤ n := by
  have hbl := bitlen_le_iff n k
  constructor
  · intro hk
    by_contra hc
    push_neg at hc
    exact absurd (hbl.2 hc) (by omega)
  · intro hk
    by_contra hc
    push_neg at hc
    exact absurd (hbl.1 hc) (by omega)

theorem lt_two_pow_bitlen (n : Nat) : n < 2 ^ bitlen n :=
  (bitlen_le_iff n (bitlen n)).1 le_rfl

theorem bitlen_pos (n : Nat) (h : n ≠ 0) : 0 < bitlen n := by
  rw [lt_bitlen_iff]
  omega

theorem two_pow_bitlen_pred_le (n : Nat) (h : n ≠ 0) : 2 ^ (bitlen n - 1) ≤ n := by
  rw [← lt_bitlen_iff]
  have := bitlen_pos n h
  omega

theorem bitlen_mono {m n : Nat} (h : m ≤ n) : bitlen m ≤ bitlen n := by
  rw [bitlen_le_iff]
  exact Nat.lt_of_le_of_lt h (lt_two_pow_bitlen n)

theorem bitlen_two_pow (n : Nat) : bitlen (2 ^ n) = n + 1 := by
  refine Nat.le_antisymm ?_ ?_
  · rw [bitlen_le_iff]
    exact Nat.pow_lt_pow_right (by norm_num) (Nat.lt_succ_self n)
  · exact (lt_bitlen_iff (2 ^ n) n).2 le_rfl

theorem and_lor_absorb (a b : Nat) : a &&& (a ||| b) = a :=
  Nat.eq_of_testBit_eq fun i => by
    rw [Nat.testBit_and, Nat.testBit_or]
    cases a.testBit i <;> simp

theorem le_lor_left (a b : Nat) : a ≤ a ||| b := by
  conv_lhs => rw [← and_lor_absorb a b]
  exact Nat.and_le_right

theorem le_lor_right (a b : Nat) : b ≤ a ||| b := by
  rw [Nat.lor_comm]
  exact le_lor_left b a

theorem bitlen_lor (a b : Nat) : bitlen (a ||| b) = max (bitlen a) (bitlen b) := by
  refine Nat.le_antisymm ?_ ?_
  · rw [bitlen_le_iff]
    refine Nat.or_lt_two_pow ?_ ?_
    · exact Nat.lt_of_lt_of_le (lt_two_pow_bitlen a)
        (Nat.pow_le_pow_right (by norm_num) (Nat.le_max_left _ _))
    · exact Nat.lt_of_lt_of_le (lt_two_pow_bitlen b)
        (Nat.pow_le_pow_right (by norm_num) (Nat.le_max_right _ _))
  · exact Nat.max_le.2 ⟨bitlen_mono (le_lor_left a b), bitlen_mono (le_lor_right a b)⟩

theorem logicalLen_lor_max (a b : Nat) :
    logicalLen (a ||| b) = max (logicalLen a) (logicalLen b) := by
  unfold logicalLen
  rw [bitlen_lor]
  omega

theorem logicalLen_lor (a b : Nat) (h : logicalLen a = logicalLen b) :
    logicalLen (a ||| b) = logicalLen a := by
  rw [logicalLen_lor_max, h, Nat.max_self]

theorem flagBits_lt (b : Nat) : flagBits b < 2 ^ logicalLen b :=
  Nat.mod_lt b (Nat.two_pow_pos _)

theorem val_decomp (b : Nat) (h : b ≠ 0) : b = 2 ^ logicalLen b + flagBits b := by
  have hlo : 2 ^ logicalLen b ≤ b := two_pow_bitlen_pred_le b h
  have hhi : b < 2 ^ (logicalLen b + 1) := by
    rw [← bitlen_le_iff]
    have := bitlen_pos b h
    unfold logicalLen
    omega
  have hdiv : b / 2 ^ logicalLen b = 1 := by
    refine Nat.div_eq_of_lt_le (by simpa using hlo) ?_
    rw [Nat.pow_succ] at hhi
    omega
  have hmod := Nat.div_add_mod b (2 ^ logicalLen b)
  rw [hdiv, Nat.mul_one] at hmod
  unfold flagBits
  omega

theorem eq_of_len_flags_eq (a b : Nat) (ha : a ≠ 0) (hb : b ≠ 0)
    (hlen : logicalLen a = logicalLen b) (hfl : flagBits a = flagBits b) : a = b := by
  rw [val_decomp a ha, val_decomp b hb, hlen, hfl]

theorem mod_two_pow_lor (a b k : Nat) :
    (a ||| b) % 2 ^ k = a % 2 ^ k ||| b % 2 ^ k :=
  Nat.eq_of_testBit_eq fun i => by
    simp only [Nat.testBit_mod_two_pow, Nat.testBit_or]
    cases hk : decide (i < k) <;> simp

theorem flagBits_lor (a b : Nat) (h : logicalLen a = logicalLen b) :
    flagBits (a ||| b) = flagBits a ||| flagBits b := by
  show (a ||| b) % 2 ^ logicalLen (a ||| b) = flagBits a ||| flagBits b
  rw [logicalLen_lor a b h, mod_two_pow_lor]
  unfold flagBits
  rw [h]

/-! ## Claim C5 -/

/-- Claim C5: `AggregatePair` returns the length-mismatch error when the
logical lengths differ, the overlap error when the lengths agree but the
flag bits intersect, and otherwise the bitwise union, whose sentinel sits at
the shared length and whose bits are the bitwise union of the inputs;
together with the concrete vectors of the tests. -/
theorem claim_C5_aggregate_pair :
    (∀ a b, logicalLen a ≠ logicalLen b →
      AggregatePair a b = .error .BitlistLengthMismatch) ∧
    (∀ a b, logicalLen a = logicalLen b → flagBits a &&& flagBits b ≠ 0 →
      AggregatePair a b = .error .BitlistOverlap) ∧
    (∀ a b, logicalLen a = logicalLen b → flagBits a &&& flagBits b = 0 →
      AggregatePair a b = .ok (a ||| b) ∧ logicalLen (a ||| b) = logicalLen a ∧
      ∀ k, (a ||| b).testBit k = (a.testBit k || b.testBit k)) ∧
    AggregatePair 0x03 0x02 = .ok 0x03 ∧ AggregatePair 0x02 0x03 = .ok 0x03 ∧
    AggregatePair 0x1F 0x11 = .error .BitlistOverlap ∧
    AggregatePair 0x0F 0x11 = .error .BitlistLengthMismatch := by
  refine ⟨?_, ?_, ?_, by decide, by decide, by decide, by decide⟩
  · intro a b hne
    unfold AggregatePair
    rw [if_pos hne]
  · intro a b hlen hov
    unfold AggregatePair
    rw [if_neg (by simp [hlen]), if_pos (by simp [overlapsBits, hov])]
  · intro a b hlen hov
    refine ⟨?_, logicalLen_lor a b hlen, fun k => Nat.testBit_or a b k⟩
    unfold AggregatePair
    rw [if_neg (by simp [hlen]), if_neg (by simp [overlapsBits, hov])]

/-- Witness for C5 at the concrete length-mismatch pair of the tests. -/
theorem claim_C5_witness :
    AggregatePair 0x0F 0x11 = .error .BitlistLengthMismatch :=
  (claim_C5_aggregate_pair).1 0x0F 0x11 (by decide)

/-! ## Helper lemmas: flag-bit algebra -/

theorem lor_eq_right {a b : Nat} (h : a &&& b = a) : a ||| b = b :=
  Nat.eq_of_testBit_eq fun i => by
    have hb := congrArg (fun x => Nat.testBit x i) h
    simp only [Nat.testBit_and] at hb
    rw [Nat.testBit_or]
    cases ha : a.testBit i <;> cases hbb : b.testBit i <;> simp_all

theorem and_lor_absorb_right (a b : Nat) : a &&& (b ||| a) = a :=
  Nat.eq_of_testBit_eq fun i => by
    rw [Nat.testBit_and, Nat.testBit_or]
    cases a.testBit i <;> simp

theorem lor_lor_merge (a b c : Nat) : (a ||| b) ||| (a ||| c) = a ||| (b ||| c) :=
  Nat.eq_of_testBit_eq fun i => by
    simp only [Nat.testBit_or]
    cases a.testBit i <;> cases b.testBit i <;> cases c.testBit i <;> rfl

theorem two_pow_sub_one_lor_two_pow (k : Nat) : (2 ^ k - 1) ||| 2 ^ k = 2 ^ (k + 1) - 1 :=
  Nat.eq_of_testBit_eq fun i => by
    simp only [Nat.testBit_or, Nat.testBit_two_pow_sub_one, Nat.testBit_two_pow]
    rcases Nat.lt_trichotomy i k with h | h | h
    · simp [h, Nat.lt_succ_of_lt h, Nat.ne_of_gt h]
    · simp [h, Nat.lt_succ_self]
    · have h1 : decide (i < k) = false := by simp; omega
      have h2 : decide (k = i) = false := by simp; omega
      have h3 : decide (i < k + 1) = false := by simp; omega
      rw [h1, h2, h3, Bool.or_self]

theorem two_pow_sub_one_land_two_pow (k : Nat) : (2 ^ k - 1) &&& 2 ^ k = 0 :=
  Nat.eq_of_testBit_eq fun i => by
    simp only [Nat.testBit_and, Nat.testBit_two_pow_sub_one, Nat.testBit_two_pow,
      Nat.zero_testBit]
    rcases Nat.lt_or_ge i k with h | h
    · simp [Nat.ne_of_gt h]
    · simp [Nat.not_lt.2 h]

theorem bitlen_two_pow_sub_one (k : Nat) : bitlen (2 ^ k - 1) = k := by
  refine Nat.le_antisymm ?_ ?_
  · rw [bitlen_le_iff]
    have := Nat.two_pow_pos k
    omega
  · cases k with
    | zero => exact Nat.zero_le _
    | succ m =>
      refine Nat.succ_le_of_lt ?_
      rw [lt_bitlen_iff]
      have h1 : 2 ^ m < 2 ^ (m + 1) := Nat.pow_lt_pow_right (by norm_num) (Nat.lt_succ_self m)
      omega

theorem sameLen_eq_true_iff (a b : Nat) : sameLen a b = true ↔ logicalLen a = logicalLen b := by
  simp [sameLen]

theorem subsetBits_eq_true_iff (a b : Nat) :
    subsetBits a b = true ↔ flagBits a &&& flagBits b = flagBits a := by
  simp [subsetBits]

theorem overlapsBits_eq_false_iff (a b : Nat) :
    overlapsBits a b = false ↔ flagBits a &&& flagBits b = 0 := by
  simp [overlapsBits]

theorem subsetBits_refl (a : Nat) : subsetBits a a = true := by
  rw [subsetBits_eq_true_iff]
  exact Nat.and_self _

theorem land_subset_trans {x y z : Nat} (h1 : x &&& y = x) (h2 : y &&& z = y) :
    x &&& z = x := by
  conv_lhs => rw [← h1, Nat.and_assoc, h2]
  exact h1

theorem subsetBits_trans {a b c : Nat} (h1 : subsetBits a b = true)
    (h2 : subsetBits b c = true) : subsetBits a c = true := by
  rw [subsetBits_eq_true_iff] at h1 h2 ⊢
  exact land_subset_trans h1 h2

theorem land_zero_of_subset_left {x y z : Nat} (h1 : x &&& y = x) (h2 : y &&& z = 0) :
    x &&& z = 0 := by
  conv_lhs => rw [← h1, Nat.and_assoc, h2]
  exact Nat.and_zero x

theorem land_lor_of_subset {a b c : Nat} (h : a &&& c = a) : a &&& (b ||| c) = a := by
  rw [Nat.and_or_distrib_left, h]
  refine lor_eq_right ?_
  rw [Nat.and_comm a b, Nat.and_assoc, Nat.and_self]

/-- Union of the flag patterns of a list of attestations. -/
def unionBits (l : List Nat) : Nat := l.foldr Nat.lor 0

/-- Two attestations with disjoint flag bits. -/
def disjointFlags (x y : Nat) : Prop := flagBits x &&& flagBits y = 0

/-- An output group decomposes as the union of a non-empty, pairwise
non-overlapping subfamily of the inputs, all of the group's length class. -/
def Decomp (atts0 : List Nat) (g : Nat) : Prop :=
  ∃ sub, sub ≠ [] ∧ (∀ x ∈ sub, x ∈ atts0) ∧ (∀ x ∈ sub, logicalLen x = logicalLen g) ∧
    List.Pairwise disjointFlags sub ∧ g = unionBits sub

theorem unionBits_cons (x : Nat) (l : List Nat) : unionBits (x :: l) = x ||| unionBits l := rfl

theorem unionBits_singleton (x : Nat) : unionBits [x] = x := by
  show x ||| 0 = x
  exact Nat.or_zero x

theorem logicalLen_unionBits (l : List Nat) (L : Nat) (hne : l ≠ [])
    (hall : ∀ x ∈ l, logicalLen x = L) : logicalLen (unionBits l) = L := by
  induction l with
  | nil => exact absurd rfl hne
  | cons x rest ih =>
    cases rest with
    | nil =>
      rw [unionBits_singleton]
      exact hall x (List.mem_cons_self x [])
    | cons y rest2 =>
      rw [unionBits_cons]
      have hlr : logicalLen (unionBits (y :: rest2)) = L :=
        ih (by simp) (fun z hz => hall z (List.mem_cons_of_mem x hz))
      have hx : logicalLen x = L := hall x (List.mem_cons_self x _)
      rw [logicalLen_lor_max, hx, hlr, Nat.max_self]

theorem flagBits_unionBits_subset (l : List Nat) (L : Nat) (hall : ∀ y ∈ l, logicalLen y = L)
    (x : Nat) (hx : x ∈ l) : flagBits x &&& flagBits (unionBits l) = flagBits x := by
  induction l with
  | nil => cases hx
  | cons y rest ih =>
    rcases List.mem_cons.1 hx with rfl | hxr
    · cases rest with
      | nil =>
        rw [unionBits_singleton]
        exact Nat.and_self _
      | cons z rest2 =>
        rw [unionBits_cons, flagBits_lor]
        · exact and_lor_absorb (flagBits x) _
        · rw [hall x (List.mem_cons_self x _),
            logicalLen_unionBits (z :: rest2) L (by simp)
              (fun w hw => hall w (List.mem_cons_of_mem x hw))]
    · have hrest : rest ≠ [] := by
        intro he
        rw [he] at hxr
        cases hxr
      rw [unionBits_cons, flagBits_lor]
      · refine land_lor_of_subset ?_
        exact ih (fun w hw => hall w (List.mem_cons_of_mem y hw)) hxr
      · rw [hall y (List.mem_cons_self y _), logicalLen_unionBits rest L hrest
          (fun w hw => hall w (List.mem_cons_of_mem y hw))]

/-! ## Helper lemmas: the merge pass -/

theorem mergeIntoFirst_self_covered (groups : List Nat) (att : Nat) :
    ∃ g ∈ mergeIntoFirst groups att, logicalLen g = logicalLen att ∧
      subsetBits att g = true := by
  induction groups with
  | nil => exact ⟨att, List.mem_cons_self att [], rfl, subsetBits_refl att⟩
  | cons g gs ih =>
    show ∃ g1 ∈ (if sameLen g att && !overlapsBits g att then (g ||| att) :: gs
      else g :: mergeIntoFirst gs att), _
    by_cases hc : (sameLen g att && !overlapsBits g att) = true
    · rw [if_pos hc]
      have hsl : logicalLen g = logicalLen att :=
        (sameLen_eq_true_iff g att).1 (Bool.and_elim_left hc)
      refine ⟨g ||| att, List.mem_cons_self _ _, ?_, ?_⟩
      · rw [logicalLen_lor_max, hsl, Nat.max_self]
      · rw [subsetBits_eq_true_iff, flagBits_lor g att hsl]
        exact and_lor_absorb_right (flagBits att) (flagBits g)
    · rw [if_neg hc]
      obtain ⟨g1, hg1, hlen, hsub⟩ := ih
      exact ⟨g1, List.mem_cons_of_mem g hg1, hlen, hsub⟩

theorem mergeIntoFirst_grows (groups : List Nat) (att g0 : Nat) (hg : g0 ∈ groups) :
    ∃ g1 ∈ mergeIntoFirst groups att, logicalLen g1 = logicalLen g0 ∧
      subsetBits g0 g1 = true := by
  induction groups with
  | nil => cases hg
  | cons g gs ih =>
    show ∃ g1 ∈ (if sameLen g att && !overlapsBits g att then (g ||| att) :: gs
      else g :: mergeIntoFirst gs att), _
    by_cases hc : (sameLen g att && !overlapsBits g att) = true
    · rw [if_pos hc]
      have hsl : logicalLen g = logicalLen att :=
        (sameLen_eq_true_iff g att).1 (Bool.and_elim_left hc)
      rcases List.mem_cons.1 hg with rfl | hgs
      · refine ⟨g0 ||| att, List.mem_cons_self _ _, ?_, ?_⟩
        · rw [logicalLen_lor_max, hsl, Nat.max_self]
        · rw [subsetBits_eq_true_iff, flagBits_lor g0 att hsl]
          exact and_lor_absorb (flagBits g0) (flagBits att)
      · exact ⟨g0, List.mem_cons_of_mem _ hgs, rfl, subsetBits_refl g0⟩
    · rw [if_neg hc]
      rcases List.mem_cons.1 hg with rfl | hgs
      · exact ⟨g0, List.mem_cons_self _ _, rfl, subsetBits_refl g0⟩
      · obtain ⟨g1, hg1, hlen, hsub⟩ := ih hgs
        exact ⟨g1, List.mem_cons_of_mem g hg1, hlen, hsub⟩

theorem mergePass_coverage_aux :
    ∀ (l acc : List Nat) (a : Nat),
      ((∃ g ∈ acc, logicalLen g = logicalLen a ∧ subsetBits a g = true) ∨ a ∈ l) →
      ∃ g ∈ List.foldl mergeIntoFirst acc l, logicalLen g = logicalLen a ∧
        subsetBits a g = true := by
  intro l
  induction l with
  | nil =>
    intro acc a h
    rcases h with h | h
    · exact h
    · cases h
  | cons att rest ih =>
    intro acc a h
    rw [List.foldl_cons]
    rcases h with ⟨g, hg, hlen, hsub⟩ | h
    · obtain ⟨g1, hg1, hlen1, hsub1⟩ := mergeIntoFirst_grows acc att g hg
      exact ih (mergeIntoFirst acc att) a
        (Or.inl ⟨g1, hg1, hlen1.trans hlen, subsetBits_trans hsub hsub1⟩)
    · rcases List.mem_cons.1 h with rfl | hrest
      · obtain ⟨g1, hg1, hlen1, hsub1⟩ := mergeIntoFirst_self_covered acc a
        exact ih (mergeIntoFirst acc a) a (Or.inl ⟨g1, hg1, hlen1, hsub1⟩)
      · exact ih (mergeIntoFirst acc att) a (Or.inr hrest)

theorem mergeIntoFirst_decomp (atts0 : List Nat) (att : Nat) (hatt : att ∈ atts0)
    (groups : List Nat) (hgs : ∀ g ∈ groups, Decomp atts0 g) :
    ∀ g1 ∈ mergeIntoFirst groups att, Decomp atts0 g1 := by
  induction groups with
  | nil =>
    intro g1 hg1
    rcases List.mem_cons.1 hg1 with rfl | hf
    · exact ⟨[g1], by simp, by simpa using hatt, by simp, List.pairwise_singleton _ _,
        (unionBits_singleton g1).symm⟩
    · cases hf
  | cons g gs ih =>
    intro g1 hg1
    rw [show mergeIntoFirst (g :: gs) att =
      (if sameLen g att && !overlapsBits g att then (g ||| att) :: gs
        else g :: mergeIntoFirst gs att) from rfl] at hg1
    by_cases hc : (sameLen g att && !overlapsBits g att) = true
    · rw [if_pos hc] at hg1
      have hsl : logicalLen g = logicalLen att :=
        (sameLen_eq_true_iff g att).1 (Bool.and_elim_left hc)
      have hov : flagBits g &&& flagBits att = 0 := by
        rw [← overlapsBits_eq_false_iff]
        have := Bool.and_elim_right hc
        cases hb : overlapsBits g att
        · rfl
        · rw [hb] at this
          cases this
      rcases List.mem_cons.1 hg1 with rfl | hgs1
      · obtain ⟨sub, hne, hin, hlen, hpw, heq⟩ := hgs g (List.mem_cons_self g gs)
        have hlenU : logicalLen (g ||| att) = logicalLen g := by
          rw [logicalLen_lor_max, hsl, Nat.max_self]
        refine ⟨att :: sub, by simp, ?_, ?_, ?_, ?_⟩
        · intro x hx
          rcases List.mem_cons.1 hx with rfl | hxs
          · exact hatt
          · exact hin x hxs
        · intro x hx
          rcases List.mem_cons.1 hx with rfl | hxs
          · rw [hlenU, hsl]
          · rw [hlenU]
            exact hlen x hxs
        · refine List.Pairwise.cons ?_ hpw
          intro x hx
          show flagBits att &&& flagBits x = 0
          have hxsub : flagBits x &&& flagBits g = flagBits x := by
            rw [heq]
            exact flagBits_unionBits_subset sub (logicalLen g)
              (fun y hy => hlen y hy) x hx
          rw [Nat.and_comm]
          exact land_zero_of_subset_left hxsub hov
        · rw [unionBits_cons, ← heq, Nat.lor_comm]
      · exact hgs g1 (List.mem_cons_of_mem g hgs1)
    · rw [if_neg hc] at hg1
      rcases List.mem_cons.1 hg1 with rfl | hgs1
      · exact hgs g1 (List.mem_cons_self g1 gs)
      · exact ih (fun g2 hg2 => hgs g2 (List.mem_cons_of_mem g hg2)) g1 hgs1

theorem mergePass_decomp_aux (atts0 : List Nat) :
    ∀ (l acc : List Nat), (∀ x ∈ l, x ∈ atts0) → (∀ g ∈ acc, Decomp atts0 g) →
      ∀ g ∈ List.foldl mergeIntoFirst acc l, Decomp atts0 g := by
  intro l
  induction l with
  | nil =>
    intro acc _ hacc g hg
    exact hacc g hg
  | cons att rest ih =>
    intro acc hl hacc g hg
    rw [List.foldl_cons] at hg
    refine ih (mergeIntoFirst acc att) (fun x hx => hl x (List.mem_cons_of_mem att hx))
      ?_ g hg
    exact mergeIntoFirst_decomp atts0 att (hl att (List.mem_cons_self att rest)) acc hacc

/-! ## Helper lemmas: duplicate elimination -/

theorem dedupInsert_mem (kept : List Nat) (g g1 : Nat) (h : g1 ∈ dedupInsert kept g) :
    g1 ∈ kept ∨ g1 = g := by
  unfold dedupInsert at h
  by_cases hc : kept.any (fun h => sameLen g h && subsetBits g h) = true
  · rw [if_pos hc] at h
    exact Or.inl h
  · rw [if_neg hc] at h
    rcases List.mem_append.1 h with hf | hg1
    · exact Or.inl (List.mem_of_mem_filter hf)
    · exact Or.inr (List.mem_singleton.1 hg1)

theorem dedupInsert_covers_new (kept : List Nat) (g : Nat) :
    ∃ g1 ∈ dedupInsert kept g, logicalLen g1 = logicalLen g ∧ subsetBits g g1 = true := by
  unfold dedupInsert
  by_cases hc : kept.any (fun h => sameLen g h && subsetBits g h) = true
  · rw [if_pos hc]
    obtain ⟨h0, hh0, hp⟩ := List.any_eq_true.1 hc
    exact ⟨h0, hh0, ((sameLen_eq_true_iff g h0).1 (Bool.and_elim_left hp)).symm,
      Bool.and_elim_right hp⟩
  · rw [if_neg hc]
    exact ⟨g, List.mem_append_right _ (List.mem_singleton.2 rfl), rfl, subsetBits_refl g⟩

theorem dedupInsert_covers_old (kept : List Nat) (g h0 : Nat) (hh : h0 ∈ kept) :
    ∃ g1 ∈ dedupInsert kept g, logicalLen g1 = logicalLen h0 ∧ subsetBits h0 g1 = true := by
  unfold dedupInsert
  by_cases hc : kept.any (fun h => sameLen g h && subsetBits g h) = true
  · rw [if_pos hc]
    exact ⟨h0, hh, rfl, subsetBits_refl h0⟩
  · rw [if_neg hc]
    by_cases hrem : (sameLen h0 g && subsetBits h0 g) = true
    · refine ⟨g, List.mem_append_right _ (List.mem_singleton.2 rfl), ?_, ?_⟩
      · exact ((sameLen_eq_true_iff h0 g).1 (Bool.and_elim_left hrem)).symm
      · exact Bool.and_elim_right hrem
    · refine ⟨h0, List.mem_append_left _ ?_, rfl, subsetBits_refl h0⟩
      refine List.mem_filter.2 ⟨hh, ?_⟩
      rw [bool_eq_false_of_not_true hrem]
      rfl

theorem dedup_coverage_aux :
    ∀ (l acc : List Nat) (a : Nat),
      ((∃ g ∈ acc, logicalLen g = logicalLen a ∧ subsetBits a g = true) ∨
        (∃ g ∈ l, logicalLen g = logicalLen a ∧ subsetBits a g = true)) →
      ∃ g ∈ List.foldl dedupInsert acc l, logicalLen g = logicalLen a ∧
        subsetBits a g = true := by
  intro l
  induction l with
  | nil =>
    intro acc a h
    rcases h with h | ⟨g, hg, _⟩
    · exact h
    · cases hg
  | cons x rest ih =>
    intro acc a h
    rw [List.foldl_cons]
    rcases h with ⟨g, hg, hlen, hsub⟩ | ⟨g, hg, hlen, hsub⟩
    · obtain ⟨g1, hg1, hlen1, hsub1⟩ := dedupInsert_covers_old acc x g hg
      exact ih (dedupInsert acc x) a
        (Or.inl ⟨g1, hg1, hlen1.trans hlen, subsetBits_trans hsub hsub1⟩)
    · rcases List.mem_cons.1 hg with rfl | hrest
      · obtain ⟨g1, hg1, hlen1, hsub1⟩ := dedupInsert_covers_new acc g
        exact ih (dedupInsert acc g) a
          (Or.inl ⟨g1, hg1, hlen1.trans hlen, subsetBits_trans hsub hsub1⟩)
      · exact ih (dedupInsert acc x) a (Or.inr ⟨g, hrest, hlen, hsub⟩)

theorem dedup_mem_aux :
    ∀ (l acc : List Nat) (g : Nat), g ∈ List.foldl dedupInsert acc l →
      g ∈ acc ∨ g ∈ l := by
  intro l
  induction l with
  | nil =>
    intro acc g hg
    exact Or.inl hg
  | cons x rest ih =>
    intro acc g hg
    rw [List.foldl_cons] at hg
    rcases ih (dedupInsert acc x) g hg with hi | hr
    · rcases dedupInsert_mem acc x g hi with hk | rfl
      · exact Or.inl hk
      · exact Or.inr (List.mem_cons_self g rest)
    · exact Or.inr (List.mem_cons_of_mem x hr)

/-! ## Helper lemmas: the checked aggregator never fails -/

theorem mergeIntoFirstChecked_eq (groups : List Nat) (att : Nat) :
    mergeIntoFirstChecked groups att = .ok (mergeIntoFirst groups att) := by
  induction groups with
  | nil => rfl
  | cons g gs ih =>
    show (if sameLen g att && !overlapsBits g att then
        match AggregatePair g att with
        | Except.error e => Except.error e
        | Except.ok m => Except.ok (m :: gs)
      else
        match mergeIntoFirstChecked gs att with
        | Except.error e => Except.error e
        | Except.ok gs1 => Except.ok (g :: gs1)) =
      Except.ok (if sameLen g att && !overlapsBits g att then (g ||| att) :: gs
        else g :: mergeIntoFirst gs att)
    by_cases hc : (sameLen g att && !overlapsBits g att) = true
    · rw [if_pos hc, if_pos hc]
      have hsl : logicalLen g = logicalLen att :=
        (sameLen_eq_true_iff g att).1 (Bool.and_elim_left hc)
      have hov : overlapsBits g att = false := by
        have := Bool.and_elim_right hc
        cases hb : overlapsBits g att
        · rfl
        · rw [hb] at this
          cases this
      have hpair : AggregatePair g att = .ok (g ||| att) := by
        unfold AggregatePair
        rw [if_neg (by simp [hsl]), if_neg (by rw [hov]; exact Bool.false_ne_true)]
      rw [hpair]
    · rw [if_neg hc, if_neg hc, ih]

theorem mergePassChecked_aux :
    ∀ (l acc : List Nat), List.foldlM mergeIntoFirstChecked acc l =
      .ok (List.foldl mergeIntoFirst acc l) := by
  intro l
  induction l with
  | nil => intro acc; rfl
  | cons att rest ih =>
    intro acc
    rw [List.foldlM_cons, mergeIntoFirstChecked_eq]
    show List.foldlM mergeIntoFirstChecked (mergeIntoFirst acc att) rest = _
    rw [ih, List.foldl_cons]

theorem AggregateChecked_eq (atts : List Nat) :
    AggregateChecked atts = .ok (Aggregate atts) := by
  unfold AggregateChecked mergePassChecked
  rw [mergePassChecked_aux]
  rfl

/-! ## Helper lemmas: aggregating single-bit attestations -/

/-- Modelled from the spec: the test helper `bitlistsWithSingleBitSet n` (not
in src) — `n` BitVectors of logical length `n`, the `k`-th having exactly
flag bit `k` set. -/
def singleBitAtts (n : Nat) : List Nat :=
  (List.range n).map fun k => 2 ^ n ||| 2 ^ k

theorem logicalLen_single (n k : Nat) (hk : k < n) : logicalLen (2 ^ n ||| 2 ^ k) = n := by
  unfold logicalLen
  rw [bitlen_lor, bitlen_two_pow, bitlen_two_pow]
  omega

theorem flagBits_single (n k : Nat) (hk : k < n) : flagBits (2 ^ n ||| 2 ^ k) = 2 ^ k := by
  unfold flagBits
  rw [logicalLen_single n k hk, mod_two_pow_lor, Nat.mod_self,
    Nat.mod_eq_of_lt (Nat.pow_lt_pow_right (by norm_num) hk), Nat.lor_comm, Nat.or_zero]

theorem logicalLen_accum (n k : Nat) (hk1 : 1 ≤ k) (hkn : k ≤ n) :
    logicalLen (2 ^ n ||| (2 ^ k - 1)) = n := by
  unfold logicalLen
  rw [bitlen_lor, bitlen_two_pow, bitlen_two_pow_sub_one]
  omega

theorem flagBits_accum (n k : Nat) (hkn : k ≤ n) (hk1 : 1 ≤ k) :
    flagBits (2 ^ n ||| (2 ^ k - 1)) = 2 ^ k - 1 := by
  unfold flagBits
  rw [logicalLen_accum n k hk1 hkn, mod_two_pow_lor, Nat.mod_self]
  have hlt : 2 ^ k - 1 < 2 ^ n := by
    have := Nat.pow_le_pow_right (show 1 ≤ 2 by norm_num) hkn
    have := Nat.two_pow_pos k
    omega
  rw [Nat.mod_eq_of_lt hlt, Nat.lor_comm, Nat.or_zero]

theorem mergePass_singles (n : Nat) :
    ∀ k, 1 ≤ k → k ≤ n →
      List.foldl mergeIntoFirst [] ((List.range k).map fun i => 2 ^ n ||| 2 ^ i) =
        [2 ^ n ||| (2 ^ k - 1)] := by
  intro k
  induction k with
  | zero =>
    intro h1 _
    omega
  | succ k ih =>
    intro _ hkn
    rcases Nat.eq_zero_or_pos k with rfl | hk1
    · show List.foldl mergeIntoFirst [] (List.map _ [0]) = _
      show [2 ^ n ||| 2 ^ 0] = [2 ^ n ||| (2 ^ 1 - 1)]
      norm_num
    · rw [List.range_succ, List.map_append, List.foldl_append, ih hk1 (by omega)]
      show mergeIntoFirst [2 ^ n ||| (2 ^ k - 1)] (2 ^ n ||| 2 ^ k) = _
      have hkltn : k < n := by omega
      have hsl : sameLen (2 ^ n ||| (2 ^ k - 1)) (2 ^ n ||| 2 ^ k) = true := by
        rw [sameLen_eq_true_iff, logicalLen_accum n k hk1 (by omega),
          logicalLen_single n k hkltn]
      have hov : overlapsBits (2 ^ n ||| (2 ^ k - 1)) (2 ^ n ||| 2 ^ k) = false := by
        rw [overlapsBits_eq_false_iff, flagBits_accum n k (by omega) hk1,
          flagBits_single n k hkltn]
        exact two_pow_sub_one_land_two_pow k
      show (if sameLen (2 ^ n ||| (2 ^ k - 1)) (2 ^ n ||| 2 ^ k) &&
          !overlapsBits (2 ^ n ||| (2 ^ k - 1)) (2 ^ n ||| 2 ^ k) then
          ((2 ^ n ||| (2 ^ k - 1)) ||| (2 ^ n ||| 2 ^ k)) :: [] else _) = _
      rw [if_pos (by rw [hsl, hov]; rfl)]
      rw [lor_lor_merge, two_pow_sub_one_lor_two_pow]

theorem dedup_singleton (v : Nat) : dedup [v] = [v] := by
  show dedupInsert [] v = [v]
  unfold dedupInsert
  rw [if_neg (by simp)]
  rfl

theorem Aggregate_singles (n : Nat) (hn : 1 ≤ n) :
    Aggregate (singleBitAtts n) = [2 ^ (n + 1) - 1] := by
  unfold Aggregate mergePass singleBitAtts
  rw [mergePass_singles n n hn le_rfl]
  have hv : 2 ^ n ||| (2 ^ n - 1) = 2 ^ (n + 1) - 1 := by
    rw [Nat.lor_comm]
    exact two_pow_sub_one_lor_two_pow n
  rw [hv, dedup_singleton]

/-! ## Helper lemmas: the outputs form an antichain per length class -/

theorem dedupInsert_pairwise (kept : List Nat) (g : Nat)
    (hp : List.Pairwise (fun a b =>
      ¬(sameLen a b = true ∧ (subsetBits a b = true ∨ subsetBits b a = true))) kept) :
    List.Pairwise (fun a b =>
      ¬(sameLen a b = true ∧ (subsetBits a b = true ∨ subsetBits b a = true)))
      (dedupInsert kept g) := by
  unfold dedupInsert
  by_cases hc : kept.any (fun h => sameLen g h && subsetBits g h) = true
  · rw [if_pos hc]
    exact hp
  · rw [if_neg hc]
    rw [List.pairwise_append]
    refine ⟨List.Pairwise.sublist (List.filter_sublist kept) hp,
      List.pairwise_singleton _ _, ?_⟩
    intro a ha b hb
    rw [List.mem_singleton] at hb
    subst hb
    rintro ⟨hsl, hsub | hsub⟩
    · obtain ⟨hak, hacond⟩ := List.mem_filter.1 ha
      rw [hsl, hsub] at hacond
      cases hacond
    · have hany := List.any_eq_false.1 (bool_eq_false_of_not_true hc)
        a (List.mem_of_mem_filter ha)
      refine hany ?_
      have hslr : sameLen b a = true := by
        rw [sameLen_eq_true_iff] at hsl ⊢
        exact hsl.symm
      rw [hslr, hsub]
      rfl

theorem dedup_pairwise_aux :
    ∀ (l acc : List Nat), List.Pairwise (fun a b =>
        ¬(sameLen a b = true ∧ (subsetBits a b = true ∨ subsetBits b a = true))) acc →
      List.Pairwise (fun a b =>
        ¬(sameLen a b = true ∧ (subsetBits a b = true ∨ subsetBits b a = true)))
        (List.foldl dedupInsert acc l) := by
  intro l
  induction l with
  | nil =>
    intro acc h
    exact h
  | cons x rest ih =>
    intro acc h
    rw [List.foldl_cons]
    exact ih (dedupInsert acc x) (dedupInsert_pairwise acc x h)

/-! ## Helper lemmas: length classes are aggregated independently -/

theorem mergeIntoFirst_filter_eq (c att : Nat) (hatt : logicalLen att = c) :
    ∀ groups : List Nat,
      (mergeIntoFirst groups att).filter (fun g => decide (logicalLen g = c)) =
        mergeIntoFirst (groups.filter (fun g => decide (logicalLen g = c))) att := by
  intro groups
  induction groups with
  | nil =>
    show [att].filter _ = [att]
    rw [List.filter_cons]
    simp [hatt]
  | cons g gs ih =>
    show (if sameLen g att && !overlapsBits g att then (g ||| att) :: gs
      else g :: mergeIntoFirst gs att).filter _ = _
    by_cases hc : (sameLen g att && !overlapsBits g att) = true
    · rw [if_pos hc]
      have hsl : logicalLen g = logicalLen att :=
        (sameLen_eq_true_iff g att).1 (Bool.and_elim_left hc)
      have hgc : logicalLen g = c := hsl.trans hatt
      have hmc : logicalLen (g ||| att) = c := by
        rw [logicalLen_lor_max, hsl, Nat.max_self, hatt]
      rw [List.filter_cons, if_pos (by simp [hmc]), List.filter_cons, if_pos (by simp [hgc])]
      show _ = (if sameLen g att && !overlapsBits g att then
        (g ||| att) :: gs.filter _ else g :: mergeIntoFirst (gs.filter _) att)
      rw [if_pos hc]
    · rw [if_neg hc, List.filter_cons, List.filter_cons]
      by_cases hgc : (decide (logicalLen g = c)) = true
      · rw [if_pos hgc, if_pos hgc]
        show g :: (mergeIntoFirst gs att).filter _ =
          (if sameLen g att && !overlapsBits g att then
            (g ||| att) :: gs.filter _ else g :: mergeIntoFirst (gs.filter _) att)
        rw [if_neg hc, ih]
      · rw [if_neg hgc, if_neg hgc, ih]

theorem mergeIntoFirst_filter_ne (c att : Nat) (hatt : logicalLen att ≠ c) :
    ∀ groups : List Nat,
      (mergeIntoFirst groups att).filter (fun g => decide (logicalLen g = c)) =
        groups.filter (fun g => decide (logicalLen g = c)) := by
  intro groups
  induction groups with
  | nil =>
    show [att].filter _ = []
    rw [List.filter_cons]
    simp [hatt]
  | cons g gs ih =>
    show (if sameLen g att && !overlapsBits g att then (g ||| att) :: gs
      else g :: mergeIntoFirst gs att).filter _ = _
    by_cases hc : (sameLen g att && !overlapsBits g att) = true
    · rw [if_pos hc]
      have hsl : logicalLen g = logicalLen att :=
        (sameLen_eq_true_iff g att).1 (Bool.and_elim_left hc)
      have hmc : logicalLen (g ||| att) ≠ c := by
        rw [logicalLen_lor_max, hsl, Nat.max_self]
        exact hatt
      have hgc : logicalLen g ≠ c := fun he => hatt (hsl.symm.trans he)
      rw [List.filter_cons, if_neg (by simp [hmc]), List.filter_cons, if_neg (by simp [hgc])]
    · rw [if_neg hc, List.filter_cons, List.filter_cons]
      by_cases hgc : (decide (logicalLen g = c)) = true
      · rw [if_pos hgc, if_pos hgc, ih]
      · rw [if_neg hgc, if_neg hgc, ih]

theorem mergePass_filter (c : Nat) :
    ∀ (l acc : List Nat),
      (List.foldl mergeIntoFirst acc l).filter (fun g => decide (logicalLen g = c)) =
        List.foldl mergeIntoFirst (acc.filter (fun g => decide (logicalLen g = c)))
          (l.filter (fun a => decide (logicalLen a = c))) := by
  intro l
  induction l with
  | nil => intro acc; rfl
  | cons att rest ih =>
    intro acc
    rw [List.foldl_cons, List.filter_cons]
    by_cases hattc : (decide (logicalLen att = c)) = true
    · rw [if_pos hattc, List.foldl_cons, ih (mergeIntoFirst acc att),
        mergeIntoFirst_filter_eq c att (of_decide_eq_true hattc)]
    · rw [if_neg hattc, ih (mergeIntoFirst acc att),
        mergeIntoFirst_filter_ne c att (of_decide_eq_true (p := ¬(logicalLen att = c))
          (by simp at hattc ⊢; exact hattc))]

theorem dedupInsert_filter_eq (c g : Nat) (hg : logicalLen g = c) (kept : List Nat) :
    (dedupInsert kept g).filter (fun h => decide (logicalLen h = c)) =
      dedupInsert (kept.filter (fun h => decide (logicalLen h = c))) g := by
  unfold dedupInsert
  by_cases hc : kept.any (fun h => sameLen g h && subsetBits g h) = true
  · rw [if_pos hc]
    obtain ⟨h0, hh0, hp0⟩ := List.any_eq_true.1 hc
    have hlh0 : logicalLen h0 = c := by
      rw [← ((sameLen_eq_true_iff g h0).1 (Bool.and_elim_left hp0)), hg]
    rw [if_pos]
    rw [List.any_eq_true]
    exact ⟨h0, List.mem_filter.2 ⟨hh0, by simp [hlh0]⟩, hp0⟩
  · rw [if_neg hc, if_neg]
    · rw [List.filter_append, List.filter_cons]
      rw [if_pos (by simp [hg])]
      rw [List.filter_comm]
      rfl
    · intro hany
      obtain ⟨h0, hh0, hp0⟩ := List.any_eq_true.1 hany
      exact hc (List.any_eq_true.2 ⟨h0, List.mem_of_mem_filter hh0, hp0⟩)

theorem dedupInsert_filter_ne (c g : Nat) (hg : logicalLen g ≠ c) (kept : List Nat) :
    (dedupInsert kept g).filter (fun h => decide (logicalLen h = c)) =
      kept.filter (fun h => decide (logicalLen h = c)) := by
  unfold dedupInsert
  by_cases hc : kept.any (fun h => sameLen g h && subsetBits g h) = true
  · rw [if_pos hc]
  · rw [if_neg hc, List.filter_append, List.filter_cons, if_neg (by simp [hg])]
    rw [List.filter_comm]
    show (List.filter _ (kept.filter fun h => decide (logicalLen h = c))) ++ [] = _
    rw [List.append_nil]
    refine List.filter_eq_self.2 ?_
    intro x hx
    have hxc : logicalLen x = c := of_decide_eq_true (List.mem_filter.1 hx).2
    have hxg : sameLen x g = false := by
      cases hb : sameLen x g
      · rfl
      · rw [sameLen_eq_true_iff] at hb
        exact absurd (hxc.symm.trans hb) (fun he => hg he.symm)
    rw [hxg]
    rfl

theorem dedup_filter (c : Nat) :
    ∀ (l acc : List Nat),
      (List.foldl dedupInsert acc l).filter (fun h => decide (logicalLen h = c)) =
        List.foldl dedupInsert (acc.filter (fun h => decide (logicalLen h = c)))
          (l.filter (fun h => decide (logicalLen h = c))) := by
  intro l
  induction l with
  | nil => intro acc; rfl
  | cons g rest ih =>
    intro acc
    rw [List.foldl_cons, List.filter_cons]
    by_cases hgc : (decide (logicalLen g = c)) = true
    · rw [if_pos hgc, List.foldl_cons, ih (dedupInsert acc g),
        dedupInsert_filter_eq c g (of_decide_eq_true hgc)]
    · rw [if_neg hgc, ih (dedupInsert acc g),
        dedupInsert_filter_ne c g (by simpa using hgc)]

theorem Aggregate_filter (atts : List Nat) (c : Nat) :
    (Aggregate atts).filter (fun g => decide (logicalLen g = c)) =
      Aggregate (atts.filter (fun a => decide (logicalLen a = c))) := by
  unfold Aggregate dedup mergePass
  rw [dedup_filter, mergePass_filter]
  rfl

/-! ## Claims C6, C7, C8 -/

/-- Counterexample to C6 as stated: flag bit 2 of input `{0b00000101, 0b1}`
(value 261) appears in two distinct outputs of its own length class when
aggregated with `{0b00000110, 0b1}` (value 262) — the overlap test of the
Go sources — so an input flag bit is not represented in exactly one output
group of its length class. -/
theorem claim_C6_counterexample :
    Nat.testBit (flagBits 261) 2 = true ∧ 2 < logicalLen 261 ∧
    261 ∈ Aggregate [261, 262] ∧
    ¬∃! g, g ∈ Aggregate [261, 262] ∧ logicalLen g = logicalLen 261 ∧
      Nat.testBit (flagBits g) 2 = true := by
  refine ⟨by decide, by decide, by decide, ?_⟩
  rintro ⟨g, _, huniq⟩
  have h1 := huniq 261 (by decide)
  have h2 := huniq 262 (by decide)
  omega

/-- Claim C6 (amended): every input's flag bits are covered by at least one
output group of its length class; every output group is the union of a
non-empty, pairwise non-overlapping subfamily of inputs of its length class
(no output has a bit contributed by two overlapping inputs); and 256 and
1024 single-bit-set vectors of a shared length aggregate to exactly one
attestation with all bits set. -/
theorem claim_C6_coverage_disjoint :
    (∀ atts a, a ∈ atts → ∃ g, g ∈ Aggregate atts ∧ logicalLen g = logicalLen a ∧
      subsetBits a g = true) ∧
    (∀ atts g, g ∈ Aggregate atts → Decomp atts g) ∧
    Aggregate (singleBitAtts 256) = [2 ^ 257 - 1] ∧
    Aggregate (singleBitAtts 1024) = [2 ^ 1025 - 1] := by
  refine ⟨?_, ?_, Aggregate_singles 256 (by norm_num), Aggregate_singles 1024 (by norm_num)⟩
  · intro atts a ha
    obtain ⟨g1, hg1, hlen1, hsub1⟩ := mergePass_coverage_aux atts [] a (Or.inr ha)
    exact dedup_coverage_aux (mergePass atts) [] a (Or.inr ⟨g1, hg1, hlen1, hsub1⟩)
  · intro atts g hg
    have hg1 : g ∈ mergePass atts := by
      rcases dedup_mem_aux (mergePass atts) [] g hg with h | h
      · cases h
      · exact h
    refine mergePass_decomp_aux atts atts [] (fun x hx => hx) ?_ g hg1
    intro g2 hg2
    cases hg2

/-- Witness for C6: the coverage part applied to a concrete input list. -/
theorem claim_C6_witness :
    ∃ g, g ∈ Aggregate [261, 262] ∧ logicalLen g = logicalLen 261 ∧
      subsetBits 261 g = true :=
  (claim_C6_coverage_disjoint).1 [261, 262] 261 (by decide)

/-- Claim C7: the Go-style aggregator with error plumbing never returns an
error (length classes are never compared, so no length-mismatch error can
arise); aggregation restricted to any length class equals aggregation of the
inputs of that class (classes are independent and every class's outputs
appear); and the three test vectors of three distinct lengths aggregate to
exactly those three untouched outputs. -/
theorem claim_C7_length_partition :
    (∀ atts, AggregateChecked atts = .ok (Aggregate atts)) ∧
    (∀ atts c, (Aggregate atts).filter (fun g => decide (logicalLen g = c)) =
      Aggregate (atts.filter (fun a => decide (logicalLen a = c)))) ∧
    Aggregate [3 + 2 * 256, 7 + 4 * 256, 4 + 256] =
      [3 + 2 * 256, 7 + 4 * 256, 4 + 256] :=
  ⟨AggregateChecked_eq, fun atts c => Aggregate_filter atts c, by decide⟩

/-- Counterexample to C8 as stated: with inputs 263 = `{0b00000111, 0b1}`,
257 = `{0b00000001, 0b1}`, 386 = `{0b10000010, 0b1}`, the flag bits of 257
are a subset of the current union of the only existing group (263) when 257
is processed, yet 257 is not dropped: its bit is merged into the second
group (output 387), and removing 257 changes the aggregate. -/
theorem claim_C8_counterexample :
    mergePass [263] = [263] ∧ sameLen 257 263 = true ∧ subsetBits 257 263 = true ∧
    Aggregate [263, 257, 386] = [263, 387] ∧ Aggregate [263, 386] = [263, 386] := by
  refine ⟨by decide, by decide, by decide, by decide, by decide⟩

/-- Claim C8 (amended): an attestation subsumed by a group of its length
class is never re-emitted as an output of its own — the final outputs of
each length class form an antichain (no output's flag bits are a subset of
another same-length output's, duplicates eliminated) — though its bits may
still be merged into another group; the concrete cases hold: `{0b00000001}`
and `{0b00000011}` in either order aggregate to exactly `{0b00000011}`, and
the four inputs aggregate to exactly `{0b00001111}`. -/
theorem claim_C8_subset_dedup :
    (∀ atts, List.Pairwise (fun a b =>
      ¬(sameLen a b = true ∧ (subsetBits a b = true ∨ subsetBits b a = true)))
      (Aggregate atts)) ∧
    Aggregate [257, 259] = [259] ∧ Aggregate [259, 257] = [259] ∧
    Aggregate [261, 262, 266, 265] = [271] := by
  refine ⟨?_, by decide, by decide, by decide⟩
  intro atts
  exact dedup_pairwise_aux (mergePass atts) [] List.Pairwise.nil

end Prysm
